import Mathlib

/-!
# Verification of the fuzzy-ratio aspect-ratio approximation library

A shallow embedding of `src/index.ts` (the authoritative range-scan variant).
JavaScript numbers are modelled as exact rationals (`ℚ`); `Math.floor`,
`Math.round` and `Math.abs` become `Int.floor`, `fun q => ⌊q + 1/2⌋` and `|·|`;
the ES2019-stable `Array.prototype.sort` becomes a stable insertion sort; the
insertion-ordered `Map` used for `alts` becomes an association list with
in-place value update.  The recursive JS `getGcd` is embedded with an explicit
recursion-depth bound (fuel) that suffices for every argument pair the program
feeds it (non-negative integer-valued numbers).
-/

namespace FuzzyRatio

/-- JS truncation toward zero, as used by the `%` operator on numbers. -/
def jsTrunc (q : ℚ) : ℤ :=
  if 0 ≤ q then ⌊q⌋ else ⌈q⌉

/-- The JS remainder operator `a % b` on numbers (sign of the dividend). -/
def jsMod (a b : ℚ) : ℚ :=
  a - b * (jsTrunc (a / b) : ℚ)

/-- `Math.round`: round half toward positive infinity. -/
def jsRound (q : ℚ) : ℚ :=
  (⌊q + 1 / 2⌋ : ℚ)

/-- `round(value)` from index.ts: round to two decimal places. -/
def round (value : ℚ) : ℚ :=
  jsRound (value * 100) / 100

/-- Fuel-bounded Euclidean recursion underlying `getGcd`. -/
def gcdFuel : ℕ → ℚ → ℚ → ℚ
  | 0, left, _ => left
  | fuel + 1, left, right => if right = 0 then left else gcdFuel fuel right (jsMod left right)

/-- `getGcd(left, right)` from index.ts: `right === 0 ? left : getGcd(right, left % right)`.
The fuel bound `right.num.toNat + 1` covers the recursion depth for the
non-negative integer-valued arguments this program passes. -/
def getGcd (left right : ℚ) : ℚ :=
  gcdFuel (right.num.toNat + 1) left right

/-- `getDivisors(left, right)` from index.ts: every integer from 2 up to
`Math.floor(min(left, right) / 2)`, in increasing order. -/
def getDivisors (left right : ℕ) : List ℕ :=
  List.range' 2 (min left right / 2 - 1)

/-- The per-dimension error record built by `getError`. -/
structure ErrorRatio where
  range : ℚ
  percent : ℚ
  ratio : ℚ
  mod : ℚ
deriving DecidableEq, Repr

/-- `getError(value, divisor)` from index.ts. -/
def getError (value divisor : ℚ) : ErrorRatio :=
  let original := value * divisor
  let mod := (⌊value⌋ : ℚ) * divisor
  let ratio := mod / divisor
  let closest := if |mod - original| > |mod - ratio - original| then mod - ratio else mod
  let range := |original - closest|
  let percent := round (range / original * 100)
  ⟨range, percent, ratio, mod⟩

/-- The `{width, height}` pair of the width/height error records. -/
structure ErrorPair where
  width : ErrorRatio
  height : ErrorRatio
deriving DecidableEq, Repr

/-- `Ratio` from index.ts (JS numbers, hence rationals here). -/
structure Ratio where
  width : ℚ
  height : ℚ
deriving DecidableEq, Repr

/-- The two tolerance interpretations of `Fuzz.type`. -/
inductive FuzzType where
  | percent
  | range
deriving DecidableEq, Repr

/-- `Options` from index.ts; the claims restrict width/height to positive
integers, so those two fields are naturals (cast to ℚ where arithmetic
happens, mirroring the JS numbers). -/
structure Options where
  width : ℕ
  height : ℕ
  type : FuzzType
  tolerance : ℚ
  allowedRatios : Option (List Ratio) := none
deriving DecidableEq, Repr

/-- `RatioError` from index.ts as actually constructed by `toFuzzed`
(fields `diff`, `percent`, `mod`, `ratio`). -/
structure RatioError where
  diff : ℚ
  percent : ℚ
  mod : ℚ
  ratio : ℚ
deriving DecidableEq, Repr

/-- The `error` payload of a `FuzzRatio`. -/
structure FuzzError where
  width : RatioError
  height : RatioError
deriving DecidableEq, Repr

/-- `FuzzRatio` from index.ts. -/
structure FuzzRatio where
  width : ℚ
  height : ℚ
  error : FuzzError
  original : Ratio
deriving DecidableEq, Repr

/-- `Result` from index.ts; `none` models an absent/undefined field. -/
structure Result where
  ratio : Ratio
  fuzzed : Option FuzzRatio := none
  alts : Option (List FuzzRatio) := none
deriving DecidableEq, Repr

/-- The `AcceptableRatio` shape accumulated inside `fuzzRatio`. -/
structure AcceptableRatio where
  width : ℚ
  height : ℚ
  div : ℕ
  error : Option ErrorPair := none
deriving DecidableEq, Repr

/-- `toFuzzed(ratio, error)` from index.ts. -/
def toFuzzed (ratio : Ratio) (error : ErrorPair) : FuzzRatio :=
  { width := error.width.ratio
    height := error.height.ratio
    error :=
      { width := ⟨error.width.range, error.width.percent, error.width.mod, error.width.ratio⟩
        height := ⟨error.height.range, error.height.percent, error.height.mod, error.height.ratio⟩ }
    original := ratio }

/-- The joint re-reduction of the two error ratios by their GCD
(`nextGcd` in index.ts). -/
def reduceError (error : ErrorPair) : ErrorPair :=
  let nextGcd := getGcd error.width.ratio error.height.ratio
  { width := { error.width with ratio := error.width.ratio / nextGcd }
    height := { error.height with ratio := error.height.ratio / nextGcd } }

/-- The tolerance test of the `switch (options.type)` block. -/
def accepts (type : FuzzType) (tolerance : ℚ) (error : ErrorPair) : Bool :=
  match type with
  | .percent => decide (error.width.percent ≤ tolerance) && decide (error.height.percent ≤ tolerance)
  | .range => decide (error.width.range ≤ tolerance) && decide (error.height.range ≤ tolerance)

/-- One iteration of the `for (const ratio of ratios)` loop: the exact push
(when both components are integral) followed by the tolerance-tested push. -/
def evalCandidate (options : Options) (ratio : AcceptableRatio) : List AcceptableRatio :=
  let isExact := decide (ratio.height = jsRound ratio.height) && decide (ratio.width = jsRound ratio.width)
  let error := reduceError ⟨getError ratio.width (ratio.div : ℚ), getError ratio.height (ratio.div : ℚ)⟩
  (if isExact then [ratio] else []) ++
    (if accepts options.type options.tolerance error then [{ ratio with error := some error }] else [])

/-- `acceptableRatios`: the divisor range mapped to rough ratios and run
through the evaluation loop, in order. -/
def candidates (options : Options) : List AcceptableRatio :=
  ((getDivisors options.width options.height).map fun (div : ℕ) =>
      { width := (options.width : ℚ) / (div : ℚ)
        height := (options.height : ℚ) / (div : ℚ)
        div := div : AcceptableRatio }).flatMap
    (evalCandidate options)

/-- The candidate's effective width used by the allow-list filter. -/
def effectiveWidth (ratio : AcceptableRatio) : ℚ :=
  match ratio.error with
  | some error => error.width.ratio
  | none => ratio.width

/-- The candidate's effective height used by the allow-list filter. -/
def effectiveHeight (ratio : AcceptableRatio) : ℚ :=
  match ratio.error with
  | some error => error.height.ratio
  | none => ratio.height

/-- The allow-list predicate of the `acceptableRatios.filter` call. -/
def isAllowed (options : Options) (ratio : AcceptableRatio) : Bool :=
  match options.allowedRatios with
  | none => true
  | some allowed =>
      decide (ratio.div = 1) ||
        allowed.any fun a => decide (a.width = effectiveWidth ratio) && decide (a.height = effectiveHeight ratio)

/-- The filtered candidate list (`allowedRatios` local in index.ts). -/
def filtered (options : Options) : List AcceptableRatio :=
  (candidates options).filter (isAllowed options)

/-- The sort key: effective width + effective height. -/
def sumKey (ratio : AcceptableRatio) : ℚ :=
  match ratio.error with
  | some error => error.width.ratio + error.height.ratio
  | none => ratio.width + ratio.height

/-- The ranked candidate list (`sorted` in index.ts).  ES2019
`Array.prototype.sort` with this consistent comparator produces the unique
stable ascending permutation; stable insertion sort computes the same list
(and, unlike mergeSort, reduces in the kernel). -/
def sortedCandidates (options : Options) : List AcceptableRatio :=
  (filtered options).insertionSort fun l r => sumKey l ≤ sumKey r

/-- The always-present `ratio` field: the GCD-reduction of the inputs. -/
def computeRatio (options : Options) : Ratio :=
  let unfuzzedDiv := getGcd (options.width : ℚ) (options.height : ℚ)
  ⟨(options.width : ℚ) / unfuzzedDiv, (options.height : ℚ) / unfuzzedDiv⟩

/-- Association-list lookup for the `alts` map (JS `Map.get`). -/
def lookupAlt (m : List ((ℚ × ℚ) × FuzzRatio)) (k : ℚ × ℚ) : Option FuzzRatio :=
  match m with
  | [] => none
  | (k0, v) :: rest => if k0 = k then some v else lookupAlt rest k

/-- In-place value update for the `alts` map (JS `Map.set` on a present key
keeps the entry's insertion position). -/
def updateAlt (m : List ((ℚ × ℚ) × FuzzRatio)) (k : ℚ × ℚ) (v : FuzzRatio) :
    List ((ℚ × ℚ) × FuzzRatio) :=
  m.map fun p => if p.1 = k then (k, v) else p

/-- One iteration of the `for (const ratio of sorted.slice(1))` loop. -/
def altsStep (m : List ((ℚ × ℚ) × FuzzRatio)) (ratio : AcceptableRatio) :
    List ((ℚ × ℚ) × FuzzRatio) :=
  match ratio.error with
  | none => m
  | some error =>
      let fuzzed := toFuzzed ⟨ratio.width, ratio.height⟩ error
      let id := (fuzzed.width, fuzzed.height)
      match lookupAlt m id with
      | none => m ++ [(id, fuzzed)]
      | some existing =>
          if error.width.percent + error.height.percent <
              existing.error.width.percent + existing.error.height.percent then
            updateAlt m id fuzzed
          else m

/-- The deduplicated `alts` array, in map insertion order. -/
def buildAlts (rest : List AcceptableRatio) : List FuzzRatio :=
  (rest.foldl altsStep []).map Prod.snd

/-- `fuzzRatio(options)` from index.ts. -/
def fuzzRatio (options : Options) : Result :=
  match sortedCandidates options with
  | [] => { ratio := computeRatio options }
  | fuzzed :: rest =>
      { ratio := computeRatio options
        fuzzed := fuzzed.error.map (toFuzzed ⟨fuzzed.width, fuzzed.height⟩)
        alts := some (buildAlts rest) }

/-- Combined percent error of an error pair, the dedup comparison key. -/
def combErr (error : ErrorPair) : ℚ :=
  error.width.percent + error.height.percent

/-- Combined percent error of a surfaced FuzzRatio. -/
def combined (f : FuzzRatio) : ℚ :=
  f.error.width.percent + f.error.height.percent

/-- Invariant of the `alts` association list: every value records its own key,
and keys are pairwise distinct. -/
def goodMap (m : List ((ℚ × ℚ) × FuzzRatio)) : Prop :=
  (∀ p ∈ m, (p.2.width, p.2.height) = p.1) ∧ m.Pairwise fun p q => p.1 ≠ q.1

theorem floor_natCast_div (a b : ℕ) : ⌊(a : ℚ) / (b : ℚ)⌋ = ((a / b : ℕ) : ℤ) := by
  have h0 : (0 : ℚ) ≤ (a : ℚ) / (b : ℚ) := by positivity
  rw [← Int.toNat_of_nonneg (Int.floor_nonneg.mpr h0), Int.floor_toNat]
  rw [Nat.floor_div_nat, Nat.floor_natCast]

theorem jsMod_natCast (a b : ℕ) : jsMod (a : ℚ) (b : ℚ) = ((a % b : ℕ) : ℚ) := by
  rcases Nat.eq_zero_or_pos b with hb | hb
  · subst hb; simp [jsMod]
  · have h0 : (0 : ℚ) ≤ (a : ℚ) / (b : ℚ) := by positivity
    rw [jsMod, jsTrunc, if_pos h0, floor_natCast_div, Int.cast_natCast]
    have hmd : a % b + b * (a / b) = a := Nat.mod_add_div a b
    have : ((a % b : ℕ) : ℚ) + (b : ℚ) * ((a / b : ℕ) : ℚ) = (a : ℚ) := by
      exact_mod_cast congrArg (Nat.cast : ℕ → ℚ) hmd
    linarith

theorem gcdFuel_natCast : ∀ (fuel a b : ℕ), b < fuel →
    gcdFuel fuel (a : ℚ) (b : ℚ) = (Nat.gcd a b : ℚ) := by
  intro fuel
  induction fuel with
  | zero => intro a b hb; omega
  | succ n ih =>
      intro a b hb
      rcases Nat.eq_zero_or_pos b with hb0 | hb0
      · subst hb0; simp [gcdFuel]
      · have hbq : ((b : ℚ)) ≠ 0 := by exact_mod_cast hb0.ne'
        have hlt : a % b < n := by
          have := Nat.mod_lt a hb0
          omega
        rw [gcdFuel, if_neg hbq, jsMod_natCast, ih b (a % b) hlt]
        rw [Nat.gcd_comm a b, Nat.gcd_rec b a, Nat.gcd_comm]

theorem getGcd_natCast (a b : ℕ) : getGcd (a : ℚ) (b : ℚ) = (Nat.gcd a b : ℚ) := by
  have hfuel : ((b : ℚ)).num.toNat = b := by rw [Rat.num_natCast, Int.toNat_natCast]
  rw [getGcd, hfuel]
  exact gcdFuel_natCast (b + 1) a b (Nat.lt_succ_self b)

theorem fuzzRatio_ratio (options : Options) :
    (fuzzRatio options).ratio = computeRatio options := by
  unfold fuzzRatio
  split <;> rfl

theorem computeRatio_eq (options : Options) (hw : 0 < options.width) (_hh : 0 < options.height) :
    computeRatio options =
      ⟨((options.width / Nat.gcd options.width options.height : ℕ) : ℚ),
        ((options.height / Nat.gcd options.width options.height : ℕ) : ℚ)⟩ := by
  have hg : 0 < Nat.gcd options.width options.height := Nat.gcd_pos_of_pos_left _ hw
  have hgq : ((Nat.gcd options.width options.height : ℕ) : ℚ) ≠ 0 := by exact_mod_cast hg.ne'
  unfold computeRatio
  rw [getGcd_natCast]
  refine congrArg₂ Ratio.mk ?_ ?_
  · exact (Nat.cast_div (Nat.gcd_dvd_left _ _) hgq).symm
  · exact (Nat.cast_div (Nat.gcd_dvd_right _ _) hgq).symm

/-- C2: the `ratio` field is the GCD-reduction of the true dimensions: its
components are the naturals `w / gcd w h` and `h / gcd w h`, that pair is
coprime, and its quotient equals `w / h` as an exact rational. -/
theorem ratio_reduced_coprime (options : Options)
    (hw : 0 < options.width) (hh : 0 < options.height) :
    (fuzzRatio options).ratio.width =
        ((options.width / Nat.gcd options.width options.height : ℕ) : ℚ) ∧
      (fuzzRatio options).ratio.height =
        ((options.height / Nat.gcd options.width options.height : ℕ) : ℚ) ∧
      Nat.gcd (options.width / Nat.gcd options.width options.height)
        (options.height / Nat.gcd options.width options.height) = 1 ∧
      (fuzzRatio options).ratio.width / (fuzzRatio options).ratio.height =
        (options.width : ℚ) / (options.height : ℚ) := by
  have hg : 0 < Nat.gcd options.width options.height := Nat.gcd_pos_of_pos_left _ hw
  have hgq : ((Nat.gcd options.width options.height : ℕ) : ℚ) ≠ 0 := by exact_mod_cast hg.ne'
  have hr := (fuzzRatio_ratio options).trans (computeRatio_eq options hw hh)
  have hwq : (fuzzRatio options).ratio.width =
      (options.width : ℚ) / (Nat.gcd options.width options.height : ℚ) := by
    rw [hr]
    exact Nat.cast_div (Nat.gcd_dvd_left _ _) hgq
  have hhq : (fuzzRatio options).ratio.height =
      (options.height : ℚ) / (Nat.gcd options.width options.height : ℚ) := by
    rw [hr]
    exact Nat.cast_div (Nat.gcd_dvd_right _ _) hgq
  refine ⟨by rw [hr], by rw [hr], Nat.coprime_div_gcd_div_gcd hg, ?_⟩
  rw [hwq, hhq]
  have hhq0 : ((options.height : ℕ) : ℚ) ≠ 0 := by exact_mod_cast hh.ne'
  field_simp

/-- C2 witness at width 4, height 6. -/
theorem ratio_reduced_coprime_witness :
    0 < (4 : ℕ) ∧ 0 < (6 : ℕ) ∧
      ((fuzzRatio ⟨4, 6, .percent, 0, none⟩).ratio.width = ((4 / Nat.gcd 4 6 : ℕ) : ℚ) ∧
        (fuzzRatio ⟨4, 6, .percent, 0, none⟩).ratio.height = ((6 / Nat.gcd 4 6 : ℕ) : ℚ) ∧
        Nat.gcd (4 / Nat.gcd 4 6) (6 / Nat.gcd 4 6) = 1 ∧
        (fuzzRatio ⟨4, 6, .percent, 0, none⟩).ratio.width /
            (fuzzRatio ⟨4, 6, .percent, 0, none⟩).ratio.height =
          ((4 : ℕ) : ℚ) / ((6 : ℕ) : ℚ)) :=
  ⟨by decide, by decide, ratio_reduced_coprime ⟨4, 6, .percent, 0, none⟩ (by decide) (by decide)⟩

/-- C9: the `ratio` field depends only on the width and height inputs, not on
the fuzz type, tolerance or allow-list. -/
theorem ratio_independent_of_fuzz (o1 o2 : Options)
    (hw : o1.width = o2.width) (hh : o1.height = o2.height) :
    (fuzzRatio o1).ratio = (fuzzRatio o2).ratio := by
  rw [fuzzRatio_ratio, fuzzRatio_ratio]
  unfold computeRatio
  rw [hw, hh]

/-- C9 witness: same dimensions, different type, tolerance and allow-list. -/
theorem ratio_independent_of_fuzz_witness :
    (⟨4, 6, .percent, 0, none⟩ : Options).width = (⟨4, 6, .range, 5, some [⟨1, 1⟩]⟩ : Options).width ∧
      (⟨4, 6, .percent, 0, none⟩ : Options).height = (⟨4, 6, .range, 5, some [⟨1, 1⟩]⟩ : Options).height ∧
      (fuzzRatio ⟨4, 6, .percent, 0, none⟩).ratio = (fuzzRatio ⟨4, 6, .range, 5, some [⟨1, 1⟩]⟩).ratio :=
  ⟨rfl, rfl, ratio_independent_of_fuzz _ _ rfl rfl⟩

/-- C10: totality.  The recursive `getGcd` is well defined on the
non-negative integer arguments the program feeds it (it computes `Nat.gcd`),
the divisor loop is bounded by `min width height / 2`, and every call
produces a `Result`. -/
theorem fuzzRatio_total :
    (∀ a b : ℕ, getGcd (a : ℚ) (b : ℚ) = (Nat.gcd a b : ℚ)) ∧
      (∀ w h : ℕ, (getDivisors w h).length ≤ min w h / 2) ∧
      ∀ options : Options, ∃ result : Result, fuzzRatio options = result := by
  refine ⟨getGcd_natCast, fun w h => ?_, fun options => ⟨fuzzRatio options, rfl⟩⟩
  rw [getDivisors, List.length_range']
  omega

theorem mem_getDivisors {w h d : ℕ} : d ∈ getDivisors w h ↔ 2 ≤ d ∧ d ≤ min w h / 2 := by
  unfold getDivisors
  rw [List.mem_range']
  constructor
  · rintro ⟨i, hi, rfl⟩
    omega
  · rintro ⟨h2, hd⟩
    exact ⟨d - 2, by omega, by omega⟩

theorem mem_evalCandidate {options : Options} {pre c : AcceptableRatio}
    (hc : c ∈ evalCandidate options pre) :
    c = pre ∨
      ∃ err, c = { pre with error := some err } ∧
        err = reduceError ⟨getError pre.width (pre.div : ℚ), getError pre.height (pre.div : ℚ)⟩ ∧
        accepts options.type options.tolerance err = true := by
  simp only [evalCandidate, List.mem_append] at hc
  rcases hc with hc | hc
  · left
    split at hc
    · simpa using hc
    · simp at hc
  · right
    split at hc
    · exact ⟨_, by simpa using hc, rfl, by assumption⟩
    · simp at hc

theorem mem_candidates_spec {options : Options} {c : AcceptableRatio}
    (hc : c ∈ candidates options) :
    ∃ d ∈ getDivisors options.width options.height,
      c.width = (options.width : ℚ) / (d : ℚ) ∧ c.height = (options.height : ℚ) / (d : ℚ) ∧
      c.div = d ∧
      (c.error = none ∨
        ∃ e, c.error = some e ∧
          e = reduceError ⟨getError ((options.width : ℚ) / (d : ℚ)) (d : ℚ),
              getError ((options.height : ℚ) / (d : ℚ)) (d : ℚ)⟩ ∧
          accepts options.type options.tolerance e = true) := by
  unfold candidates at hc
  rw [List.mem_flatMap] at hc
  obtain ⟨pre, hpre, hc⟩ := hc
  rw [List.mem_map] at hpre
  obtain ⟨d, hd, rfl⟩ := hpre
  rcases mem_evalCandidate hc with rfl | ⟨err, rfl, herr, hacc⟩
  · exact ⟨d, hd, rfl, rfl, rfl, Or.inl rfl⟩
  · exact ⟨d, hd, rfl, rfl, rfl, Or.inr ⟨err, rfl, herr, hacc⟩⟩

theorem accepts_true {t : FuzzType} {tol : ℚ} {e : ErrorPair} (h : accepts t tol e = true) :
    (t = .percent → e.width.percent ≤ tol ∧ e.height.percent ≤ tol) ∧
      (t = .range → e.width.range ≤ tol ∧ e.height.range ≤ tol) := by
  cases t <;> simp [accepts] at h <;> simp [h]

theorem mem_sortedCandidates {options : Options} {c : AcceptableRatio}
    (h : c ∈ sortedCandidates options) :
    c ∈ candidates options ∧ isAllowed options c = true := by
  unfold sortedCandidates at h
  rw [List.mem_insertionSort] at h
  unfold filtered at h
  exact List.mem_filter.mp h

theorem mem_updateAlt_snd {m : List ((ℚ × ℚ) × FuzzRatio)} {k : ℚ × ℚ} {v f : FuzzRatio}
    (h : f ∈ (updateAlt m k v).map Prod.snd) : f ∈ m.map Prod.snd ∨ f = v := by
  unfold updateAlt at h
  rw [List.map_map, List.mem_map] at h
  obtain ⟨p, hp, hf⟩ := h
  by_cases hk : p.1 = k
  · right
    simp only [Function.comp_apply, if_pos hk] at hf
    exact hf.symm
  · left
    rw [List.mem_map]
    refine ⟨p, hp, ?_⟩
    simpa only [Function.comp_apply, if_neg hk] using hf

theorem mem_altsStep_snd {m : List ((ℚ × ℚ) × FuzzRatio)} {r : AcceptableRatio} {f : FuzzRatio}
    (h : f ∈ (altsStep m r).map Prod.snd) :
    f ∈ m.map Prod.snd ∨ ∃ e, r.error = some e ∧ f = toFuzzed ⟨r.width, r.height⟩ e := by
  cases he : r.error with
  | none => simp only [altsStep, he] at h; exact Or.inl h
  | some e =>
      simp only [altsStep, he] at h
      cases hl : lookupAlt m
          ((toFuzzed ⟨r.width, r.height⟩ e).width, (toFuzzed ⟨r.width, r.height⟩ e).height) with
      | none =>
          simp only [hl, List.map_append, List.mem_append] at h
          rcases h with h | h
          · exact Or.inl h
          · simp only [List.map_cons, List.map_nil, List.mem_singleton] at h
            exact Or.inr ⟨e, rfl, h⟩
      | some ex =>
          simp only [hl] at h
          split at h
          · rcases mem_updateAlt_snd h with h' | h'
            · exact Or.inl h'
            · exact Or.inr ⟨e, rfl, h'⟩
          · exact Or.inl h

theorem mem_foldl_altsStep_snd :
    ∀ (l : List AcceptableRatio) (m : List ((ℚ × ℚ) × FuzzRatio)) (f : FuzzRatio),
      f ∈ (l.foldl altsStep m).map Prod.snd →
      f ∈ m.map Prod.snd ∨ ∃ c ∈ l, ∃ e, c.error = some e ∧ f = toFuzzed ⟨c.width, c.height⟩ e := by
  intro l
  induction l with
  | nil => intro m f h; exact Or.inl h
  | cons r l ih =>
      intro m f h
      rw [List.foldl_cons] at h
      rcases ih _ f h with h' | ⟨c, hc, e, he, hf⟩
      · rcases mem_altsStep_snd h' with h'' | ⟨e, he, hf⟩
        · exact Or.inl h''
        · exact Or.inr ⟨r, List.mem_cons_self r l, e, he, hf⟩
      · exact Or.inr ⟨c, List.mem_cons_of_mem r hc, e, he, hf⟩

theorem mem_buildAlts {rest : List AcceptableRatio} {f : FuzzRatio} (h : f ∈ buildAlts rest) :
    ∃ c ∈ rest, ∃ e, c.error = some e ∧ f = toFuzzed ⟨c.width, c.height⟩ e := by
  unfold buildAlts at h
  rcases mem_foldl_altsStep_snd rest [] f h with h' | h'
  · simp at h'
  · exact h'

theorem outputMem_spec {options : Options} {f : FuzzRatio}
    (h : (fuzzRatio options).fuzzed = some f ∨
      ∃ l, (fuzzRatio options).alts = some l ∧ f ∈ l) :
    ∃ c ∈ sortedCandidates options, ∃ e, c.error = some e ∧
      f = toFuzzed ⟨c.width, c.height⟩ e := by
  cases hs : sortedCandidates options with
  | nil =>
      simp only [fuzzRatio, hs] at h
      rcases h with h | ⟨l, hl, _⟩
      · simp at h
      · simp at hl
  | cons hd rest =>
      simp only [fuzzRatio, hs] at h
      rcases h with h | ⟨l, hl, hf⟩
      · cases he : hd.error with
        | none => rw [he] at h; simp at h
        | some e =>
            rw [he] at h
            have h' : some (toFuzzed ⟨hd.width, hd.height⟩ e) = some f := h
            injection h' with h'
            exact ⟨hd, List.mem_cons_self hd rest, e, he, h'.symm⟩
      · injection hl with hl
        subst hl
        obtain ⟨c, hc, e, he, hf'⟩ := mem_buildAlts hf
        exact ⟨c, List.mem_cons_of_mem hd hc, e, he, hf'⟩

/-- C3: every FuzzRatio surfaced in `fuzzed` or `alts` satisfies the
tolerance in the metric selected by `type`: both percent errors are at most
`tolerance` for type percent, both diffs for type range. -/
theorem output_within_tolerance (options : Options) (f : FuzzRatio)
    (h : (fuzzRatio options).fuzzed = some f ∨
      ∃ l, (fuzzRatio options).alts = some l ∧ f ∈ l) :
    (options.type = .percent →
      f.error.width.percent ≤ options.tolerance ∧
        f.error.height.percent ≤ options.tolerance) ∧
    (options.type = .range →
      f.error.width.diff ≤ options.tolerance ∧ f.error.height.diff ≤ options.tolerance) := by
  obtain ⟨c, hc, e, he, rfl⟩ := outputMem_spec h
  obtain ⟨hcand, _⟩ := mem_sortedCandidates hc
  obtain ⟨d, hd, hw, hh, hdiv, herr⟩ := mem_candidates_spec hcand
  rcases herr with hnone | ⟨e', he', _, hacc⟩
  · rw [he] at hnone; simp at hnone
  · rw [he] at he'
    injection he' with he'
    subst he'
    exact accepts_true hacc

theorem getError_ratio (value divisor : ℚ) (hd : divisor ≠ 0) :
    (getError value divisor).ratio = (⌊value⌋ : ℚ) := by
  show (⌊value⌋ : ℚ) * divisor / divisor = (⌊value⌋ : ℚ)
  exact mul_div_cancel_right₀ _ hd

/-- C4: every FuzzRatio surfaced in `fuzzed` or `alts` has an integer
`(width, height)` pair that is coprime after the joint GCD re-reduction. -/
theorem output_pair_coprime (options : Options) (f : FuzzRatio)
    (_hw : 0 < options.width) (_hh : 0 < options.height)
    (h : (fuzzRatio options).fuzzed = some f ∨
      ∃ l, (fuzzRatio options).alts = some l ∧ f ∈ l) :
    ∃ a b : ℕ, f.width = (a : ℚ) ∧ f.height = (b : ℚ) ∧ Nat.gcd a b = 1 := by
  obtain ⟨c, hc, e, he, rfl⟩ := outputMem_spec h
  obtain ⟨hcand, _⟩ := mem_sortedCandidates hc
  obtain ⟨d, hd, hwc, hhc, hdiv, herr⟩ := mem_candidates_spec hcand
  rcases herr with hnone | ⟨e', he', herr, _⟩
  · rw [he] at hnone; simp at hnone
  · rw [he] at he'
    injection he' with he'
    subst he'
    subst herr
    obtain ⟨h2d, hdm⟩ := mem_getDivisors.mp hd
    have hd0 : 0 < d := by omega
    have hdq : ((d : ℕ) : ℚ) ≠ 0 := by exact_mod_cast hd0.ne'
    have hwr : (getError ((options.width : ℚ) / (d : ℚ)) (d : ℚ)).ratio =
        ((options.width / d : ℕ) : ℚ) := by
      rw [getError_ratio _ _ hdq, floor_natCast_div, Int.cast_natCast]
    have hhr : (getError ((options.height : ℚ) / (d : ℚ)) (d : ℚ)).ratio =
        ((options.height / d : ℕ) : ℚ) := by
      rw [getError_ratio _ _ hdq, floor_natCast_div, Int.cast_natCast]
    have h2a0 : 2 ≤ options.width / d := by
      have hmw : min options.width options.height ≤ options.width :=
        Nat.min_le_left _ _
      refine (Nat.le_div_iff_mul_le hd0).mpr ?_
      omega
    have hgpos : 0 < Nat.gcd (options.width / d) (options.height / d) :=
      Nat.gcd_pos_of_pos_left _ (by omega)
    have hgq : ((Nat.gcd (options.width / d) (options.height / d) : ℕ) : ℚ) ≠ 0 := by
      exact_mod_cast hgpos.ne'
    refine ⟨options.width / d / Nat.gcd (options.width / d) (options.height / d),
      options.height / d / Nat.gcd (options.width / d) (options.height / d),
      ?_, ?_, Nat.coprime_div_gcd_div_gcd hgpos⟩
    · have hdef : (toFuzzed ⟨c.width, c.height⟩
          (reduceError ⟨getError ((options.width : ℚ) / (d : ℚ)) (d : ℚ),
            getError ((options.height : ℚ) / (d : ℚ)) (d : ℚ)⟩)).width =
          (getError ((options.width : ℚ) / (d : ℚ)) (d : ℚ)).ratio /
            getGcd (getError ((options.width : ℚ) / (d : ℚ)) (d : ℚ)).ratio
              (getError ((options.height : ℚ) / (d : ℚ)) (d : ℚ)).ratio := rfl
      rw [hdef, hwr, hhr, getGcd_natCast]
      exact (Nat.cast_div (Nat.gcd_dvd_left _ _) hgq).symm
    · have hdef : (toFuzzed ⟨c.width, c.height⟩
          (reduceError ⟨getError ((options.width : ℚ) / (d : ℚ)) (d : ℚ),
            getError ((options.height : ℚ) / (d : ℚ)) (d : ℚ)⟩)).height =
          (getError ((options.height : ℚ) / (d : ℚ)) (d : ℚ)).ratio /
            getGcd (getError ((options.width : ℚ) / (d : ℚ)) (d : ℚ)).ratio
              (getError ((options.height : ℚ) / (d : ℚ)) (d : ℚ)).ratio := rfl
      rw [hdef, hwr, hhr, getGcd_natCast]
      exact (Nat.cast_div (Nat.gcd_dvd_right _ _) hgq).symm

/-- C6: with an allow-list supplied, every surfaced candidate's effective
pair appears in the allow-list, unless it arose from a divisor-1 candidate. -/
theorem allowlist_enforced (options : Options) (allowed : List Ratio) (f : FuzzRatio)
    (hal : options.allowedRatios = some allowed)
    (h : (fuzzRatio options).fuzzed = some f ∨
      ∃ l, (fuzzRatio options).alts = some l ∧ f ∈ l) :
    (∃ a ∈ allowed, a.width = f.width ∧ a.height = f.height) ∨
      ∃ c ∈ candidates options, c.div = 1 ∧ ∃ e, c.error = some e ∧
        f = toFuzzed ⟨c.width, c.height⟩ e := by
  obtain ⟨c, hc, e, he, rfl⟩ := outputMem_spec h
  obtain ⟨hcand, hallow⟩ := mem_sortedCandidates hc
  simp only [isAllowed, hal] at hallow
  rw [Bool.or_eq_true, List.any_eq_true] at hallow
  rcases hallow with hdiv | ⟨a, ha, hcond⟩
  · rw [decide_eq_true_eq] at hdiv
    exact Or.inr ⟨c, hcand, hdiv, e, he, rfl⟩
  · rw [Bool.and_eq_true, decide_eq_true_eq, decide_eq_true_eq] at hcond
    refine Or.inl ⟨a, ha, ?_, ?_⟩
    · rw [hcond.1]
      simp only [effectiveWidth, he, toFuzzed]
    · rw [hcond.2]
      simp only [effectiveHeight, he, toFuzzed]

theorem lookupAlt_eq_none {m : List ((ℚ × ℚ) × FuzzRatio)} {k : ℚ × ℚ}
    (h : lookupAlt m k = none) : ∀ p ∈ m, p.1 ≠ k := by
  induction m with
  | nil => intro p hp; simp at hp
  | cons q rest ih =>
      intro p hp
      rw [lookupAlt] at h
      split at h
      · simp at h
      · rcases List.mem_cons.mp hp with rfl | hp'
        · assumption
        · exact ih h p hp'

theorem lookupAlt_mem {m : List ((ℚ × ℚ) × FuzzRatio)} {k : ℚ × ℚ} {v : FuzzRatio}
    (h : lookupAlt m k = some v) : (k, v) ∈ m := by
  induction m with
  | nil => simp [lookupAlt] at h
  | cons q rest ih =>
      rw [lookupAlt] at h
      split at h
      · next heq =>
          injection h with h
          subst h
          rw [List.mem_cons]
          left
          rw [← heq]
      · exact List.mem_cons_of_mem _ (ih h)

theorem keys_unique {m : List ((ℚ × ℚ) × FuzzRatio)}
    (hm : m.Pairwise fun p q => p.1 ≠ q.1) {p q : (ℚ × ℚ) × FuzzRatio}
    (hp : p ∈ m) (hq : q ∈ m) (hk : p.1 = q.1) : p = q := by
  induction m with
  | nil => simp at hp
  | cons a rest ih =>
      rcases List.pairwise_cons.mp hm with ⟨ha, hrest⟩
      rcases List.mem_cons.mp hp with rfl | hp' <;> rcases List.mem_cons.mp hq with rfl | hq'
      · rfl
      · exact absurd hk (ha q hq')
      · exact absurd hk.symm (ha p hp')
      · exact ih hrest hp' hq'

theorem updateAlt_keys (m : List ((ℚ × ℚ) × FuzzRatio)) (k : ℚ × ℚ) (v : FuzzRatio) :
    (updateAlt m k v).map Prod.fst = m.map Prod.fst := by
  unfold updateAlt
  rw [List.map_map]
  refine List.map_congr_left ?_
  intro p _
  by_cases hk : p.1 = k
  · simp [hk]
  · simp [hk]

theorem goodMap_altsStep {m : List ((ℚ × ℚ) × FuzzRatio)} {r : AcceptableRatio}
    (h : goodMap m) : goodMap (altsStep m r) := by
  cases he : r.error with
  | none => simpa only [altsStep, he] using h
  | some e =>
      simp only [altsStep, he]
      cases hl : lookupAlt m
          ((toFuzzed ⟨r.width, r.height⟩ e).width, (toFuzzed ⟨r.width, r.height⟩ e).height) with
      | none =>
          simp only [hl]
          refine ⟨?_, ?_⟩
          · intro p hp
            rcases List.mem_append.mp hp with hp' | hp'
            · exact h.1 p hp'
            · rcases List.mem_singleton.mp hp' with rfl
              rfl
          · rw [List.pairwise_append]
            refine ⟨h.2, List.pairwise_singleton _ _, ?_⟩
            intro p hp q hq
            rcases List.mem_singleton.mp hq with rfl
            exact lookupAlt_eq_none hl p hp
      | some ex =>
          simp only [hl]
          split
          · refine ⟨?_, ?_⟩
            · intro p hp
              rcases List.mem_map.mp hp with ⟨p0, _, rfl⟩
              by_cases hk : p0.1 =
                  ((toFuzzed ⟨r.width, r.height⟩ e).width, (toFuzzed ⟨r.width, r.height⟩ e).height)
              · simp only [if_pos hk]
              · simp only [if_neg hk]
                exact h.1 p0 (by assumption)
            · have h2 : ((updateAlt m
                  ((toFuzzed ⟨r.width, r.height⟩ e).width, (toFuzzed ⟨r.width, r.height⟩ e).height)
                  (toFuzzed ⟨r.width, r.height⟩ e)).map Prod.fst).Pairwise (fun a b => a ≠ b) := by
                rw [updateAlt_keys]
                exact List.pairwise_map.mpr h.2
              exact List.pairwise_map.mp h2
          · exact h

theorem foldl_goodMap :
    ∀ (l : List AcceptableRatio) (m : List ((ℚ × ℚ) × FuzzRatio)),
      goodMap m → goodMap (l.foldl altsStep m) := by
  intro l
  induction l with
  | nil => intro m h; exact h
  | cons r l ih =>
      intro m h
      rw [List.foldl_cons]
      exact ih _ (goodMap_altsStep h)

theorem altsStep_entry_mono {m : List ((ℚ × ℚ) × FuzzRatio)} {r : AcceptableRatio}
    (hm : goodMap m) {p : (ℚ × ℚ) × FuzzRatio} (hp : p ∈ m) :
    ∃ p' ∈ altsStep m r, p'.1 = p.1 ∧ combined p'.2 ≤ combined p.2 := by
  cases he : r.error with
  | none =>
      simp only [altsStep, he]
      exact ⟨p, hp, rfl, le_refl _⟩
  | some e =>
      simp only [altsStep, he]
      cases hl : lookupAlt m
          ((toFuzzed ⟨r.width, r.height⟩ e).width, (toFuzzed ⟨r.width, r.height⟩ e).height) with
      | none =>
          simp only [hl]
          exact ⟨p, List.mem_append_left _ hp, rfl, le_refl _⟩
      | some ex =>
          simp only [hl]
          split
          · next hlt =>
              by_cases hk : p.1 =
                  ((toFuzzed ⟨r.width, r.height⟩ e).width, (toFuzzed ⟨r.width, r.height⟩ e).height)
              · have hexm : (((toFuzzed ⟨r.width, r.height⟩ e).width,
                    (toFuzzed ⟨r.width, r.height⟩ e).height), ex) ∈ m := lookupAlt_mem hl
                have hpex : p = (((toFuzzed ⟨r.width, r.height⟩ e).width,
                    (toFuzzed ⟨r.width, r.height⟩ e).height), ex) :=
                  keys_unique hm.2 hp hexm (by rw [hk])
                refine ⟨(((toFuzzed ⟨r.width, r.height⟩ e).width,
                    (toFuzzed ⟨r.width, r.height⟩ e).height), toFuzzed ⟨r.width, r.height⟩ e),
                  ?_, ?_, ?_⟩
                · unfold updateAlt
                  rw [List.mem_map]
                  exact ⟨p, hp, by rw [if_pos hk]⟩
                · rw [hpex]
                · rw [hpex]
                  exact le_of_lt hlt
              · refine ⟨p, ?_, rfl, le_refl _⟩
                unfold updateAlt
                rw [List.mem_map]
                exact ⟨p, hp, by rw [if_neg hk]⟩
          · exact ⟨p, hp, rfl, le_refl _⟩

theorem foldl_altsStep_mono :
    ∀ (l : List AcceptableRatio) (m : List ((ℚ × ℚ) × FuzzRatio)), goodMap m →
      ∀ p ∈ m, ∀ q ∈ l.foldl altsStep m, q.1 = p.1 → combined q.2 ≤ combined p.2 := by
  intro l
  induction l with
  | nil =>
      intro m hm p hp q hq hk
      have : q = p := keys_unique hm.2 hq hp hk
      rw [this]
  | cons r l ih =>
      intro m hm p hp q hq hk
      rw [List.foldl_cons] at hq
      obtain ⟨p', hp', hk', hle⟩ := altsStep_entry_mono hm hp
      have := ih (altsStep m r) (goodMap_altsStep hm) p' hp' q hq (by rw [hk, ← hk'])
      exact le_trans this hle

theorem alts_min_error :
    ∀ (l : List AcceptableRatio) (m : List ((ℚ × ℚ) × FuzzRatio)), goodMap m →
      ∀ q ∈ l.foldl altsStep m, ∀ c ∈ l, ∀ e, c.error = some e →
        ((toFuzzed ⟨c.width, c.height⟩ e).width, (toFuzzed ⟨c.width, c.height⟩ e).height) = q.1 →
        combined q.2 ≤ combErr e := by
  intro l
  induction l with
  | nil => intro m _ q _ c hc; simp at hc
  | cons r l ih =>
      intro m hm q hq c hc e he hkey
      rw [List.foldl_cons] at hq
      rcases List.mem_cons.mp hc with rfl | hc'
      · -- the processed element itself: after `altsStep m c` the map holds an
        -- entry at the candidate's key whose combined error is at most combErr e
        have hstep : ∃ p' ∈ altsStep m c, p'.1 =
            ((toFuzzed ⟨c.width, c.height⟩ e).width, (toFuzzed ⟨c.width, c.height⟩ e).height) ∧
            combined p'.2 ≤ combErr e := by
          simp only [altsStep, he]
          cases hl : lookupAlt m
              ((toFuzzed ⟨c.width, c.height⟩ e).width, (toFuzzed ⟨c.width, c.height⟩ e).height) with
          | none =>
              simp only [hl]
              refine ⟨(((toFuzzed ⟨c.width, c.height⟩ e).width,
                  (toFuzzed ⟨c.width, c.height⟩ e).height), toFuzzed ⟨c.width, c.height⟩ e),
                List.mem_append_right _ (List.mem_singleton.mpr rfl), rfl, le_refl _⟩
          | some ex =>
              simp only [hl]
              split
              · next hlt =>
                  refine ⟨(((toFuzzed ⟨c.width, c.height⟩ e).width,
                      (toFuzzed ⟨c.width, c.height⟩ e).height), toFuzzed ⟨c.width, c.height⟩ e),
                    ?_, rfl, le_refl _⟩
                  unfold updateAlt
                  rw [List.mem_map]
                  exact ⟨(((toFuzzed ⟨c.width, c.height⟩ e).width,
                      (toFuzzed ⟨c.width, c.height⟩ e).height), ex), lookupAlt_mem hl,
                    by rw [if_pos rfl]⟩
              · next hnlt =>
                  refine ⟨(((toFuzzed ⟨c.width, c.height⟩ e).width,
                      (toFuzzed ⟨c.width, c.height⟩ e).height), ex), lookupAlt_mem hl, rfl, ?_⟩
                  exact le_of_not_lt hnlt
        obtain ⟨p', hp', hk', hle⟩ := hstep
        have hmono := foldl_altsStep_mono l (altsStep m c) (goodMap_altsStep hm) p' hp' q hq
          (by rw [← hkey, ← hk'])
        exact le_trans hmono hle
      · exact ih (altsStep m r) (goodMap_altsStep hm) q hq c hc' e he hkey

/-- C7: no two entries of `alts` share a `(width, height)` pair, and the
entry retained for a pair has combined percent error no greater than that of
every error-bearing non-winning candidate reducing to the same pair. -/
theorem alts_dedup_min (options : Options) (l : List FuzzRatio)
    (h : (fuzzRatio options).alts = some l) :
    (l.Pairwise fun f g => ¬(f.width = g.width ∧ f.height = g.height)) ∧
      ∀ f ∈ l, ∀ c ∈ (sortedCandidates options).tail, ∀ e, c.error = some e →
        (toFuzzed ⟨c.width, c.height⟩ e).width = f.width →
        (toFuzzed ⟨c.width, c.height⟩ e).height = f.height →
        f.error.width.percent + f.error.height.percent ≤
          e.width.percent + e.height.percent := by
  cases hs : sortedCandidates options with
  | nil =>
      simp only [fuzzRatio, hs] at h
      simp at h
  | cons hd rest =>
      simp only [fuzzRatio, hs] at h
      injection h with h
      subst h
      have hgood : goodMap (rest.foldl altsStep []) :=
        foldl_goodMap rest [] ⟨by simp, List.Pairwise.nil⟩
      constructor
      · unfold buildAlts
        rw [List.pairwise_map]
        refine List.Pairwise.imp_of_mem ?_ hgood.2
        intro p q hp hq hne hcon
        apply hne
        rw [← hgood.1 p hp, ← hgood.1 q hq]
        exact Prod.ext hcon.1 hcon.2
      · intro f hf c hc e he hwf hhf
        unfold buildAlts at hf
        rw [List.mem_map] at hf
        obtain ⟨q, hq, rfl⟩ := hf
        have hc' : c ∈ rest := hc
        have hkey : ((toFuzzed ⟨c.width, c.height⟩ e).width,
            (toFuzzed ⟨c.width, c.height⟩ e).height) = q.1 := by
          rw [hwf, hhf]
          exact hgood.1 q hq
        exact alts_min_error rest [] ⟨by simp, List.Pairwise.nil⟩ q hq c hc' e he hkey

/-- C1 counterexample: at width 4, height 6 (type percent, tolerance 0) the
divisor search produces candidates (the exact 2:3 reduction and its
error-bearing twin), yet `fuzzed` is absent, because the top-ranked candidate
is the exact one and exact candidates are never wrapped into `fuzzed`. -/
theorem fuzzed_absent_despite_candidates :
    candidates ⟨4, 6, .percent, 0, none⟩ ≠ [] ∧
      (fuzzRatio ⟨4, 6, .percent, 0, none⟩).fuzzed = none := by
  with_unfolding_all decide

/-- C1 (amended): `fuzzed` is present exactly when the ranked candidate list
is non-empty AND its top-ranked candidate carries an error metric; it is
absent both when no candidate exists and when the best candidate is an exact
(error-free) reduction. -/
theorem fuzzed_present_iff_best_has_error (options : Options) :
    (fuzzRatio options).fuzzed.isSome = true ↔
      ∃ c e, (sortedCandidates options).head? = some c ∧ c.error = some e := by
  cases hs : sortedCandidates options with
  | nil => simp [fuzzRatio, hs]
  | cons hd rest =>
      cases he : hd.error with
      | none => simp [fuzzRatio, hs, he]
      | some e =>
          simp only [fuzzRatio, hs]
          rw [he]
          constructor
          · intro _
            exact ⟨hd, e, rfl, he⟩
          · intro _
            rfl

/-- C5: the divisor enumerator yields exactly the integers from 2 through
`⌊min(width, height) / 2⌋`, strictly increasing; when `min(width, height) < 4`
it is empty and the result degrades to the bare `{ratio}`; in particular
width = height = 2 yields ratio 1:1 with no `fuzzed` and no `alts`. -/
theorem divisor_range_spec :
    (∀ w h d : ℕ, d ∈ getDivisors w h ↔ 2 ≤ d ∧ d ≤ min w h / 2) ∧
      (∀ w h : ℕ, (getDivisors w h).Pairwise (· < ·)) ∧
      (∀ options : Options, min options.width options.height < 4 →
        fuzzRatio options = { ratio := computeRatio options }) ∧
      (∀ options : Options, options.width = 2 → options.height = 2 →
        fuzzRatio options = { ratio := ⟨1, 1⟩ }) := by
  have hsmall : ∀ options : Options, min options.width options.height < 4 →
      fuzzRatio options = { ratio := computeRatio options } := by
    intro options hmin
    have hdiv : getDivisors options.width options.height = [] := by
      unfold getDivisors
      have hn : min options.width options.height / 2 - 1 = 0 := by omega
      rw [hn]
      rfl
    have hsort : sortedCandidates options = [] := by
      unfold sortedCandidates filtered candidates
      rw [hdiv]
      rfl
    simp [fuzzRatio, hsort]
  refine ⟨fun w h d => mem_getDivisors, fun w h => ?_, hsmall, fun options hw hh => ?_⟩
  · unfold getDivisors
    exact List.pairwise_lt_range' 2 _
  · have h22 := hsmall options (by rw [hw, hh]; decide)
    rw [h22]
    have hcr : computeRatio options = ⟨1, 1⟩ := by
      unfold computeRatio
      rw [hw, hh, getGcd_natCast]
      have hg : Nat.gcd 2 2 = 2 := by decide
      rw [hg]
      refine congrArg₂ Ratio.mk ?_ ?_ <;> norm_num
    rw [hcr]

/-- C5 witness: the divisor-range characterisation at 12 by 10, and the
width = height = 2 boundary case. -/
theorem divisor_range_spec_witness :
    (2 ∈ getDivisors 12 10 ↔ 2 ≤ 2 ∧ 2 ≤ min 12 10 / 2) ∧
      fuzzRatio ⟨2, 2, .percent, 0, none⟩ = { ratio := ⟨1, 1⟩ } :=
  ⟨divisor_range_spec.1 12 10 2, divisor_range_spec.2.2.2 ⟨2, 2, .percent, 0, none⟩ rfl rfl⟩

set_option maxRecDepth 400000 in
/-- C8: for width 796, height 1134, type range, tolerance 2, the result's
ratio is 398:567 and a fuzzed candidate is present with both diffs at most 2
(the 199:283 candidate, width diff 0 and height diff 2). -/
theorem scenario_796_1134 :
    (fuzzRatio ⟨796, 1134, .range, 2, none⟩).ratio = ⟨398, 567⟩ ∧
      ∃ f, (fuzzRatio ⟨796, 1134, .range, 2, none⟩).fuzzed = some f ∧
        f.error.width.diff ≤ 2 ∧ f.error.height.diff ≤ 2 := by
  constructor
  · with_unfolding_all decide
  · refine ⟨⟨199, 283, ⟨⟨0, 0, 796, 199⟩, ⟨2, 9 / 50, 1132, 283⟩⟩, ⟨199, 567 / 2⟩⟩,
      ?_, by norm_num, by norm_num⟩
    with_unfolding_all decide

/-- C3 witness at width 4, height 4, type percent, tolerance 0: the fuzzed
candidate is 1:1 with zero error. -/
theorem output_within_tolerance_witness :
    ((fuzzRatio ⟨4, 4, .percent, 0, none⟩).fuzzed =
        some ⟨1, 1, ⟨⟨0, 0, 4, 1⟩, ⟨0, 0, 4, 1⟩⟩, ⟨2, 2⟩⟩ ∨
      ∃ l, (fuzzRatio ⟨4, 4, .percent, 0, none⟩).alts = some l ∧
        (⟨1, 1, ⟨⟨0, 0, 4, 1⟩, ⟨0, 0, 4, 1⟩⟩, ⟨2, 2⟩⟩ : FuzzRatio) ∈ l) ∧
      ((⟨4, 4, .percent, 0, none⟩ : Options).type = .percent →
        (⟨1, 1, ⟨⟨0, 0, 4, 1⟩, ⟨0, 0, 4, 1⟩⟩, ⟨2, 2⟩⟩ : FuzzRatio).error.width.percent ≤
            (⟨4, 4, .percent, 0, none⟩ : Options).tolerance ∧
          (⟨1, 1, ⟨⟨0, 0, 4, 1⟩, ⟨0, 0, 4, 1⟩⟩, ⟨2, 2⟩⟩ : FuzzRatio).error.height.percent ≤
            (⟨4, 4, .percent, 0, none⟩ : Options).tolerance) ∧
      ((⟨4, 4, .percent, 0, none⟩ : Options).type = .range →
        (⟨1, 1, ⟨⟨0, 0, 4, 1⟩, ⟨0, 0, 4, 1⟩⟩, ⟨2, 2⟩⟩ : FuzzRatio).error.width.diff ≤
            (⟨4, 4, .percent, 0, none⟩ : Options).tolerance ∧
          (⟨1, 1, ⟨⟨0, 0, 4, 1⟩, ⟨0, 0, 4, 1⟩⟩, ⟨2, 2⟩⟩ : FuzzRatio).error.height.diff ≤
            (⟨4, 4, .percent, 0, none⟩ : Options).tolerance) :=
  ⟨Or.inl (by with_unfolding_all decide),
    (output_within_tolerance ⟨4, 4, .percent, 0, none⟩ _
      (Or.inl (by with_unfolding_all decide))).1,
    (output_within_tolerance ⟨4, 4, .percent, 0, none⟩ _
      (Or.inl (by with_unfolding_all decide))).2⟩

/-- C4 witness at width 4, height 4, type percent, tolerance 0: the fuzzed
1:1 pair is coprime. -/
theorem output_pair_coprime_witness :
    0 < (⟨4, 4, .percent, 0, none⟩ : Options).width ∧
      0 < (⟨4, 4, .percent, 0, none⟩ : Options).height ∧
      ((fuzzRatio ⟨4, 4, .percent, 0, none⟩).fuzzed =
          some ⟨1, 1, ⟨⟨0, 0, 4, 1⟩, ⟨0, 0, 4, 1⟩⟩, ⟨2, 2⟩⟩ ∨
        ∃ l, (fuzzRatio ⟨4, 4, .percent, 0, none⟩).alts = some l ∧
          (⟨1, 1, ⟨⟨0, 0, 4, 1⟩, ⟨0, 0, 4, 1⟩⟩, ⟨2, 2⟩⟩ : FuzzRatio) ∈ l) ∧
      ∃ a b : ℕ,
        (⟨1, 1, ⟨⟨0, 0, 4, 1⟩, ⟨0, 0, 4, 1⟩⟩, ⟨2, 2⟩⟩ : FuzzRatio).width = (a : ℚ) ∧
        (⟨1, 1, ⟨⟨0, 0, 4, 1⟩, ⟨0, 0, 4, 1⟩⟩, ⟨2, 2⟩⟩ : FuzzRatio).height = (b : ℚ) ∧
        Nat.gcd a b = 1 :=
  ⟨by decide, by decide, Or.inl (by with_unfolding_all decide),
    output_pair_coprime ⟨4, 4, .percent, 0, none⟩ _ (by decide) (by decide)
      (Or.inl (by with_unfolding_all decide))⟩

/-- C6 witness: with allow-list [1:1] at width 4, height 4, the surfaced
fuzzed candidate's pair 1:1 is in the allow-list. -/
theorem allowlist_enforced_witness :
    (⟨4, 4, .percent, 0, some [⟨1, 1⟩]⟩ : Options).allowedRatios = some [⟨1, 1⟩] ∧
      ((fuzzRatio ⟨4, 4, .percent, 0, some [⟨1, 1⟩]⟩).fuzzed =
          some ⟨1, 1, ⟨⟨0, 0, 4, 1⟩, ⟨0, 0, 4, 1⟩⟩, ⟨2, 2⟩⟩ ∨
        ∃ l, (fuzzRatio ⟨4, 4, .percent, 0, some [⟨1, 1⟩]⟩).alts = some l ∧
          (⟨1, 1, ⟨⟨0, 0, 4, 1⟩, ⟨0, 0, 4, 1⟩⟩, ⟨2, 2⟩⟩ : FuzzRatio) ∈ l) ∧
      ((∃ a ∈ ([⟨1, 1⟩] : List Ratio),
          a.width = (⟨1, 1, ⟨⟨0, 0, 4, 1⟩, ⟨0, 0, 4, 1⟩⟩, ⟨2, 2⟩⟩ : FuzzRatio).width ∧
          a.height = (⟨1, 1, ⟨⟨0, 0, 4, 1⟩, ⟨0, 0, 4, 1⟩⟩, ⟨2, 2⟩⟩ : FuzzRatio).height) ∨
        ∃ c ∈ candidates ⟨4, 4, .percent, 0, some [⟨1, 1⟩]⟩, c.div = 1 ∧
          ∃ e, c.error = some e ∧
            (⟨1, 1, ⟨⟨0, 0, 4, 1⟩, ⟨0, 0, 4, 1⟩⟩, ⟨2, 2⟩⟩ : FuzzRatio) =
              toFuzzed ⟨c.width, c.height⟩ e) :=
  ⟨rfl, Or.inl (by with_unfolding_all decide),
    allowlist_enforced ⟨4, 4, .percent, 0, some [⟨1, 1⟩]⟩ [⟨1, 1⟩] _ rfl
      (Or.inl (by with_unfolding_all decide))⟩

/-- C7 witness at width 4, height 6, type percent, tolerance 0: `alts` is the
single 2:3 entry, trivially pairwise-distinct and minimal. -/
theorem alts_dedup_min_witness :
    (fuzzRatio ⟨4, 6, .percent, 0, none⟩).alts =
        some [⟨2, 3, ⟨⟨0, 0, 4, 2⟩, ⟨0, 0, 6, 3⟩⟩, ⟨2, 3⟩⟩] ∧
      (([⟨2, 3, ⟨⟨0, 0, 4, 2⟩, ⟨0, 0, 6, 3⟩⟩, ⟨2, 3⟩⟩] : List FuzzRatio).Pairwise
          fun f g => ¬(f.width = g.width ∧ f.height = g.height)) ∧
      ∀ f ∈ ([⟨2, 3, ⟨⟨0, 0, 4, 2⟩, ⟨0, 0, 6, 3⟩⟩, ⟨2, 3⟩⟩] : List FuzzRatio),
        ∀ c ∈ (sortedCandidates ⟨4, 6, .percent, 0, none⟩).tail, ∀ e, c.error = some e →
          (toFuzzed ⟨c.width, c.height⟩ e).width = f.width →
          (toFuzzed ⟨c.width, c.height⟩ e).height = f.height →
          f.error.width.percent + f.error.height.percent ≤
            e.width.percent + e.height.percent :=
  ⟨by with_unfolding_all decide,
    alts_dedup_min ⟨4, 6, .percent, 0, none⟩ _ (by with_unfolding_all decide)⟩

end FuzzyRatio
